import Mathlib

/-!
Verification of the shodan_search CLI core.

Shallow embedding of `src/shodan_search.py`: the query builder inlined in
`handle_search_command`, the filename sanitizer, the three writers
(`write_txt`, `write_csv`, `write_json`), the per-query orchestration loop,
and the credential resolution in `get_api_key` / `main`.

Python dictionaries (Shodan result records) are modelled as ordered
association lists over a JSON-like value type `JVal`; Python's in-place
`res[key] = v` updates are modelled by explicit state passing (`dictSet`,
and `write_csv` returns the post-call record list alongside the rows).
Machine-level floats do not occur in any claim and are omitted from `JVal`.
-/

namespace ShodanSearch

/-- JSON-like values: the shape of Shodan result-record fields
(strings, integers, booleans, null, arrays, objects). -/
inductive JVal where
  | null
  | bool (b : Bool)
  | num (n : Int)
  | str (s : String)
  | arr (xs : List JVal)
  | obj (kvs : List (String × JVal))
deriving Repr

/-- A result record: a Python dict, as an ordered association list. -/
abbrev Rec := List (String × JVal)

/-- Python truthiness of an optional string (`if args.x:`):
`None` and the empty string are falsy. -/
def truthyStr : Option String → Bool
  | none => false
  | some s => !s.isEmpty

/-- Python whitespace characters recognized by `str.strip()`. -/
def pySpace (c : Char) : Bool :=
  c = ' ' || c = '\t' || c = '\n' || c = '\r' || c = '\x0b' || c = '\x0c'

/-- Python `str.strip()` on a character list. -/
def pyStrip (s : List Char) : List Char :=
  ((s.dropWhile pySpace).reverse.dropWhile pySpace).reverse

/-- Python `str.strip()` on a `String`. -/
def pyStripStr (s : String) : String := ⟨pyStrip s.data⟩

/-- `" ".join(parts)` (Python `str.join` with a single-space separator). -/
def joinSpace : List String → String
  | [] => ""
  | [x] => x
  | x :: y :: ys => x ++ " " ++ joinSpace (y :: ys)

/-- The query construction inlined in `handle_search_command`
(`query_parts = [query]; if args.country: ...; final_query = " ".join(query_parts)`). -/
def build_query (base : String) (country port vuln : Option String) : String :=
  let parts := [base]
  let parts := if truthyStr country then parts ++ ["country:" ++ country.getD ""] else parts
  let parts := if truthyStr port then parts ++ ["port:" ++ port.getD ""] else parts
  let parts := if truthyStr vuln then parts ++ ["vuln:" ++ vuln.getD ""] else parts
  joinSpace parts

/-- The characters `sanitize_filename` removes (`invalid_chars = '<>:"/\\|?*'`). -/
def invalid_chars : List Char := ['<', '>', ':', '"', '/', '\\', '|', '?', '*']

/-- One step of the removal loop: `filename = filename.replace(char, '')`. -/
def removeChar (s : List Char) (c : Char) : List Char := s.filter (fun x => x != c)

/-- `sanitize_filename`: strip, replace spaces by underscores, then delete
each invalid character in turn.  Note: the function has no fallback for an
empty result. -/
def sanitize_filename (query : String) : String :=
  ⟨invalid_chars.foldl removeChar
    ((pyStrip query.data).map (fun c => if c = ' ' then '_' else c))⟩

/-- The outcome of attempting to read the `~/.shodan/api` config file. -/
inductive ConfigFile where
  | absent
  | readError
  | content (s : String)

/-- `get_api_key`: command-line value, then environment variable, then config
file; any exception while reading the config file is swallowed (`except
Exception: pass`), yielding `none`. -/
def get_api_key (argKey envKey : Option String) (cfg : ConfigFile) : Option String :=
  if truthyStr argKey then argKey
  else if truthyStr envKey then envKey
  else
    match cfg with
    | .content s => some (pyStripStr s)
    | .readError => none
    | .absent => none

/-- What `main` does with the resolved credential before any network call. -/
inductive Startup where
  | missingKeyError
  | proceed (key : String)
deriving Repr

/-- `main`'s credential check: `if not api_key:` prints guidance and exits 1. -/
def mainStartup (argKey envKey : Option String) (cfg : ConfigFile) : Startup :=
  let k := get_api_key argKey envKey cfg
  if truthyStr k then .proceed (k.getD "") else .missingKeyError

/-- `base_filename = args.output if len(queries_to_run) == 1 and args.output
else sanitize_filename(query)`. -/
def base_filename (nq : Nat) (output : Option String) (q : String) : String :=
  if nq = 1 ∧ truthyStr output then output.getD "" else sanitize_filename q

/-- What opening the query file can yield: `FileNotFoundError`, or its lines. -/
inductive FileRead where
  | missing
  | lines (ls : List String)

/-- The two startup failures of the query-list assembly (both `sys.exit(1)`). -/
inductive StartupError where
  | queryFileMissing
  | queryFileEmpty
deriving Repr, DecidableEq

/-- The `queries_to_run` assembly at the top of `handle_search_command`:
`if args.query: ... elif args.query_file: ...`.  A falsy literal query with
no query file leaves the list empty without any error. -/
def computeQueries (query : Option String) (qfile : Option FileRead) :
    Except StartupError (List String) :=
  if truthyStr query then .ok [query.getD ""]
  else
    match qfile with
    | some .missing => .error .queryFileMissing
    | some (.lines ls) =>
      let qs := ls.filterMap (fun line =>
        let s := pyStripStr line
        if s.isEmpty then none else some s)
      if qs.isEmpty then .error .queryFileEmpty else .ok qs
    | none => .ok []

/-! ## The CSV writer (`write_csv`) -/

/-- Python `s.split(',')`: comma-separated groups, keeping empty ones. -/
def pySplitComma : List Char → List (List Char)
  | [] => [[]]
  | c :: cs =>
    let r := pySplitComma cs
    if c = ',' then [] :: r
    else
      match r with
      | [] => [[c]]
      | g :: gs => (c :: g) :: gs

/-- Python `sep.join(parts)`. -/
def joinSep (sep : String) : List String → String
  | [] => ""
  | [x] => x
  | x :: y :: ys => x ++ sep ++ joinSep sep (y :: ys)

/-- Header selection in `write_csv`: a truthy `custom_fields` is split on
commas and each field stripped, otherwise the fixed default list. -/
def csvHeaders (custom_fields : Option String) : List String :=
  if truthyStr custom_fields then
    (pySplitComma (custom_fields.getD "").data).map (fun cs => pyStripStr ⟨cs⟩)
  else
    ["ip_str", "port", "hostnames", "isp", "org", "country", "timestamp", "data"]

/-- Python dict assignment `res[k] = v` on an insertion-ordered dict:
an existing key keeps its position, a new key is appended at the end. -/
def dictSet (r : Rec) (k : String) (v : JVal) : Rec :=
  match r with
  | [] => [(k, v)]
  | (k0, v0) :: rest => if k0 = k then (k, v) :: rest else (k0, v0) :: dictSet rest k v

/-- Python `res.get(k, d)`. -/
def pyGet (r : Rec) (k : String) (d : JVal) : JVal := (List.lookup k r).getD d

/-- Python `res.get(k, {})` where the value is used as a dict
(`location` in `write_csv`; a non-dict value does not occur in result
records, so it is modelled as the empty dict). -/
def pyGetObj (r : Rec) (k : String) : Rec :=
  match List.lookup k r with
  | some (.obj kvs) => kvs
  | _ => []

/-- Python `", ".join(res.get(k, []))` for a key holding a list of strings
(`hostnames` / `vulns`); an absent key joins the empty list. -/
def joinComma (v : Option JVal) : String :=
  match v with
  | some (.arr xs) =>
    joinSep ", " (xs.filterMap (fun x => match x with | .str s => some s | _ => none))
  | _ => ""

/-- The flattening block inside the `write_csv` row loop: the three
conditional in-place assignments to `res` before `writer.writerow(res)`. -/
def flattenRecord (headers : List String) (res : Rec) : Rec :=
  let res := if headers.contains "country"
    then dictSet res "country" (pyGet (pyGetObj res "location") "country_name" (.str "N/A"))
    else res
  let res := if headers.contains "hostnames"
    then dictSet res "hostnames" (.str (joinComma (List.lookup "hostnames" res)))
    else res
  let res := if headers.contains "vulns"
    then dictSet res "vulns" (.str (joinComma (List.lookup "vulns" res)))
    else res
  res

/-- `csv.DictWriter.writerow` with `extrasaction='ignore'` and the default
`restval=''`: one cell per header field, missing fields render as the empty
string, fields outside the header are dropped. -/
def csvRow (headers : List String) (res : Rec) : List JVal :=
  headers.map (fun h => pyGet res h (.str ""))

/-- `write_csv`: returns the emitted (header, rows) and, since the row loop
mutates each `res` in place, the post-call state of the shared record list. -/
def write_csv (custom_fields : Option String) (results : List Rec) :
    (List String × List (List JVal)) × List Rec :=
  let headers := csvHeaders custom_fields
  let post := results.map (flattenRecord headers)
  ((headers, post.map (csvRow headers)), post)

/-! ## The JSON writer (`write_json`) and a JSON reader

`write_json` is `json.dump(results, f, indent=2, ensure_ascii=False)`:
two-space indentation, `", "`/`": "` item and key separators, and only
`"`, `\` and control characters escaped.  The reader below is the model of
parsing that output back (the claim speaks of re-parsing the file; the
repository itself never calls `json.load`). -/

/-- `n` spaces of indentation. -/
def spaces (n : Nat) : List Char := List.replicate n ' '

/-- JSON string escaping with `ensure_ascii=False`: quote, backslash and the
five short control escapes, `\u00xx` for the remaining control characters,
every other character (including non-ASCII) written literally. -/
def escChar (c : Char) : List Char :=
  if c = '"' then ['\\', '"']
  else if c = '\\' then ['\\', '\\']
  else if c = '\n' then ['\\', 'n']
  else if c = '\t' then ['\\', 't']
  else if c = '\r' then ['\\', 'r']
  else if c = '\x08' then ['\\', 'b']
  else if c = '\x0c' then ['\\', 'f']
  else if c.toNat < 32 then
    ['\\', 'u', '0', '0', Nat.digitChar (c.toNat / 16), Nat.digitChar (c.toNat % 16)]
  else [c]

/-- Escape every character of a string body. -/
def escBody : List Char → List Char
  | [] => []
  | c :: cs => escChar c ++ escBody cs

/-- Fuelled digit accumulation loop (fuel above `n` always suffices). -/
def natDigsCore : Nat → Nat → List Char → List Char
  | 0, _, acc => acc
  | fuel + 1, n, acc =>
    if n < 10 then Nat.digitChar n :: acc
    else natDigsCore fuel (n / 10) (Nat.digitChar (n % 10) :: acc)

/-- Decimal digits of a natural number, most significant first. -/
def natDigs (n : Nat) : List Char := natDigsCore (n + 1) n []

/-- Python `repr` of an `int`. -/
def printInt (i : Int) : List Char :=
  if i < 0 then '-' :: natDigs i.natAbs else natDigs i.toNat

mutual

/-- Render a `JVal` exactly as `json.dump(..., indent=2, ensure_ascii=False)`
does, at indentation level `ind`. -/
def printVal (ind : Nat) : JVal → List Char
  | .null => ['n', 'u', 'l', 'l']
  | .bool b => if b then ['t', 'r', 'u', 'e'] else ['f', 'a', 'l', 's', 'e']
  | .num i => printInt i
  | .str s => '"' :: escBody s.data ++ ['"']
  | .arr [] => ['[', ']']
  | .arr (x :: xs) =>
    '[' :: '\n' :: (spaces (ind + 2) ++ printVal (ind + 2) x ++ printList (ind + 2) xs) ++
      '\n' :: (spaces ind ++ [']'])
  | .obj [] => ['{', '}']
  | .obj ((k, v) :: kvs) =>
    '{' :: '\n' :: (spaces (ind + 2) ++ ('"' :: escBody k.data ++ ['"']) ++ ':' :: ' ' ::
      printVal (ind + 2) v ++ printObjList (ind + 2) kvs) ++ '\n' :: (spaces ind ++ ['}'])

/-- The `",\n"`-separated items after the first array element. -/
def printList (ind : Nat) : List JVal → List Char
  | [] => []
  | x :: xs => ',' :: '\n' :: spaces ind ++ printVal ind x ++ printList ind xs

/-- The `",\n"`-separated members after the first object member. -/
def printObjList (ind : Nat) : List (String × JVal) → List Char
  | [] => []
  | (k, v) :: kvs => ',' :: '\n' :: spaces ind ++ ('"' :: escBody k.data ++ ['"']) ++
      ':' :: ' ' :: printVal ind v ++ printObjList ind kvs

end

/-- `write_json`: the full result list serialized as a JSON array of objects. -/
def write_json (results : List Rec) : String :=
  ⟨printVal 0 (.arr (results.map .obj))⟩

/-- JSON whitespace. -/
def wsChar (c : Char) : Bool := c = ' ' || c = '\t' || c = '\n' || c = '\r'

/-- Skip leading JSON whitespace. -/
def skipWs (s : List Char) : List Char := s.dropWhile wsChar

/-- Value of one hexadecimal digit. -/
def hexVal (c : Char) : Option Nat :=
  if '0' ≤ c ∧ c ≤ '9' then some (c.toNat - 48)
  else if 'a' ≤ c ∧ c ≤ 'f' then some (c.toNat - 87)
  else if 'A' ≤ c ∧ c ≤ 'F' then some (c.toNat - 55)
  else none

/-- Value of a four-digit hexadecimal escape body. -/
def hex4 (a b c d : Char) : Option Nat :=
  match hexVal a, hexVal b, hexVal c, hexVal d with
  | some x, some y, some z, some w => some (((x * 16 + y) * 16 + z) * 16 + w)
  | _, _, _, _ => none

/-- Parse a JSON string body (after the opening quote) up to and including
the closing quote, undoing the escapes `escChar` can produce.  The fuel is
drawn from the input length at every call site; one unit is spent per
produced character, so fuel above the input length always suffices. -/
def parseStrBody : Nat → List Char → Option (List Char × List Char)
  | 0, _ => none
  | _ + 1, [] => none
  | fuel + 1, c :: rest =>
    if c = '"' then some ([], rest)
    else if c = '\\' then
      match rest with
      | [] => none
      | e :: r =>
        if e = 'n' then (parseStrBody fuel r).map (fun p => ('\n' :: p.1, p.2))
        else if e = 't' then (parseStrBody fuel r).map (fun p => ('\t' :: p.1, p.2))
        else if e = 'r' then (parseStrBody fuel r).map (fun p => ('\r' :: p.1, p.2))
        else if e = 'b' then (parseStrBody fuel r).map (fun p => ('\x08' :: p.1, p.2))
        else if e = 'f' then (parseStrBody fuel r).map (fun p => ('\x0c' :: p.1, p.2))
        else if e = 'u' then
          match r with
          | a :: b2 :: c2 :: d :: r2 =>
            match hex4 a b2 c2 d with
            | some m => (parseStrBody fuel r2).map (fun p => (Char.ofNat m :: p.1, p.2))
            | none => none
          | _ => none
        else if e = '"' || e = '\\' || e = '/' then
          (parseStrBody fuel r).map (fun p => (e :: p.1, p.2))
        else none
    else (parseStrBody fuel rest).map (fun p => (c :: p.1, p.2))

/-- Strip an expected literal from the front of the input. -/
def stripLit : List Char → List Char → Option (List Char)
  | [], s => some s
  | _ :: _, [] => none
  | p :: ps, c :: cs => if c = p then stripLit ps cs else none

/-- Consume a maximal run of decimal digits, accumulating their value. -/
def digitsToNat (acc : Nat) : List Char → Nat × List Char
  | [] => (acc, [])
  | c :: cs => if c.isDigit then digitsToNat (acc * 10 + (c.toNat - 48)) cs else (acc, c :: cs)

mutual

/-- Fuelled recursive-descent JSON value reader over the grammar
`write_json` emits (objects, arrays, strings, integers, booleans, null). -/
def parseVal : Nat → List Char → Option (JVal × List Char)
  | 0, _ => none
  | fuel + 1, s =>
    match skipWs s with
    | [] => none
    | c :: rest =>
      if c = '"' then (parseStrBody rest.length rest).map (fun p => (JVal.str ⟨p.1⟩, p.2))
      else if c = '[' then
        match skipWs rest with
        | [] => none
        | c2 :: r2 =>
          if c2 = ']' then some (.arr [], r2)
          else
            match parseVal fuel rest with
            | none => none
            | some (v, r3) =>
              match parseArrRest fuel r3 with
              | none => none
              | some (vs, r4) => some (.arr (v :: vs), r4)
      else if c = '{' then
        match skipWs rest with
        | [] => none
        | c2 :: r2 =>
          if c2 = '}' then some (.obj [], r2)
          else if c2 = '"' then
            match parseStrBody r2.length r2 with
            | none => none
            | some (k, r3) =>
              match skipWs r3 with
              | [] => none
              | c3 :: r4 =>
                if c3 = ':' then
                  match parseVal fuel r4 with
                  | none => none
                  | some (v, r5) =>
                    match parseObjRest fuel r5 with
                    | none => none
                    | some (kvs, r6) => some (.obj ((⟨k⟩, v) :: kvs), r6)
                else none
          else none
      else if c = '-' then
        match rest with
        | [] => none
        | d :: _ =>
          if d.isDigit then
            let p := digitsToNat 0 rest
            some (.num (-(Int.ofNat p.1)), p.2)
          else none
      else if c.isDigit then
        let p := digitsToNat 0 (c :: rest)
        some (.num (Int.ofNat p.1), p.2)
      else
        match stripLit ['t', 'r', 'u', 'e'] (c :: rest) with
        | some r => some (.bool true, r)
        | none =>
          match stripLit ['f', 'a', 'l', 's', 'e'] (c :: rest) with
          | some r => some (.bool false, r)
          | none =>
            match stripLit ['n', 'u', 'l', 'l'] (c :: rest) with
            | some r => some (.null, r)
            | none => none

/-- Array members after the first one: `,` value ... `]`. -/
def parseArrRest : Nat → List Char → Option (List JVal × List Char)
  | 0, _ => none
  | fuel + 1, s =>
    match skipWs s with
    | [] => none
    | c :: rest =>
      if c = ']' then some ([], rest)
      else if c = ',' then
        match parseVal fuel rest with
        | none => none
        | some (v, r2) =>
          match parseArrRest fuel r2 with
          | none => none
          | some (vs, r3) => some (v :: vs, r3)
      else none

/-- Object members after the first one: `,` key `:` value ... `}`. -/
def parseObjRest : Nat → List Char → Option (List (String × JVal) × List Char)
  | 0, _ => none
  | fuel + 1, s =>
    match skipWs s with
    | [] => none
    | c :: rest =>
      if c = '}' then some ([], rest)
      else if c = ',' then
        match skipWs rest with
        | [] => none
        | c2 :: r2 =>
          if c2 = '"' then
            match parseStrBody r2.length r2 with
            | none => none
            | some (k, r3) =>
              match skipWs r3 with
              | [] => none
              | c3 :: r4 =>
                if c3 = ':' then
                  match parseVal fuel r4 with
                  | none => none
                  | some (v, r5) =>
                    match parseObjRest fuel r5 with
                    | none => none
                    | some (kvs, r6) => some ((⟨k⟩, v) :: kvs, r6)
                else none
          else none
      else none

end

/-- Parse a complete JSON document (one value, then only whitespace). -/
def parseJson (s : String) : Option JVal :=
  match parseVal (s.data.length + 1) s.data with
  | some (v, r) => if (skipWs r).isEmpty then some v else none
  | none => none

/-- Recover the record list from a parsed JSON array of objects. -/
def decodeRecList : List JVal → Option (List Rec)
  | [] => some []
  | .obj kvs :: xs => (decodeRecList xs).map (fun rs => kvs :: rs)
  | _ => none

/-- Recover a record list from a parsed JSON document. -/
def decodeRecords : JVal → Option (List Rec)
  | .arr xs => decodeRecList xs
  | _ => none

/-- The input does not begin with a decimal digit (trivially true when
empty); the printed form of every value leaves such a remainder. -/
def headNotDigit : List Char → Prop
  | [] => True
  | c :: _ => c.isDigit = false

mutual

/-- Fuel sufficient for `parseVal` on the printed form of a value. -/
def jfuel : JVal → Nat
  | .null => 1
  | .bool _ => 1
  | .num _ => 1
  | .str _ => 1
  | .arr xs => 1 + lfuel xs
  | .obj kvs => 1 + olfuel kvs

/-- Fuel sufficient for `parseArrRest` on the tail of a printed array. -/
def lfuel : List JVal → Nat
  | [] => 1
  | x :: xs => 1 + jfuel x + lfuel xs

/-- Fuel sufficient for `parseObjRest` on the tail of a printed object. -/
def olfuel : List (String × JVal) → Nat
  | [] => 1
  | (_, v) :: kvs => 1 + jfuel v + olfuel kvs

end

/-! ## The per-query orchestration loop of `handle_search_command` -/

/-- The `--format` choices. -/
inductive Format where
  | txt
  | csv
  | json
deriving Repr, DecidableEq

/-- The file extension appended to the base name (`f"{base}.{args.format}"`). -/
def formatExt : Format → String
  | .txt => "txt"
  | .csv => "csv"
  | .json => "json"

/-- The search sub-command options that drive the per-query loop. -/
structure SearchArgs where
  output : Option String
  format : Format
  timestamp : Bool
  country : Option String
  port : Option String
  vuln : Option String
  fields : Option String

/-- What iterating `api.search_cursor(final_query)` can do: complete with
all yielded records, or raise `shodan.APIError` after yielding some. -/
inductive FetchOutcome where
  | success (records : List Rec)
  | apiError (collected : List Rec)

/-- Terminal state of one query in the batch. -/
inductive Outcome where
  | remoteError
  | emptyResult
  | success (filename : String)
deriving Repr

/-- What a writer produced for one query (`write_txt` renders text from
the query and records; no claim concerns its exact text, so its payload is
kept symbolic). -/
inductive FileContent where
  | txt (query : String) (results : List Rec)
  | csv (headers : List String) (rows : List (List JVal))
  | json (text : String)

/-- The writer dispatch at the bottom of the loop body. -/
def runWriter (a : SearchArgs) (fq : String) (results : List Rec) : FileContent × List Rec :=
  match a.format with
  | .csv =>
    let r := write_csv a.fields results
    (.csv r.1.1 r.1.2, r.2)
  | .txt => (.txt fq results, results)
  | .json => (.json (write_json results), results)

/-- One iteration of the `for i, query in enumerate(queries_to_run)` loop:
build the final query, fetch, and either record a remote error (partial
records discarded, nothing written), skip an empty result set, or name the
output file and invoke the writer.  `nq` is `len(queries_to_run)` and
`now` the timestamp suffix. -/
def processQuery (fetch : String → FetchOutcome) (a : SearchArgs) (nq : Nat) (now : String)
    (q : String) : Outcome × Option (String × FileContent) :=
  let fq := build_query q a.country a.port a.vuln
  match fetch fq with
  | .apiError _ => (.remoteError, none)
  | .success results =>
    if results.isEmpty then (.emptyResult, none)
    else
      let base := base_filename nq a.output q
      let base := if a.timestamp then base ++ "_" ++ now else base
      let fname := base ++ "." ++ formatExt a.format
      (.success fname, some (fname, (runWriter a fq results).1))

/-- The whole loop: each query processed in order, a failure in one never
stopping the next (`continue`). -/
def runQueries (fetch : String → FetchOutcome) (a : SearchArgs) (nq : Nat) (now : String) :
    List String → List (Outcome × Option (String × FileContent))
  | [] => []
  | q :: rest => processQuery fetch a nq now q :: runQueries fetch a nq now rest

end ShodanSearch

namespace ShodanSearch

/-! ## Helper lemmas about the sanitizer -/

theorem foldl_removeChar (cs l : List Char) :
    cs.foldl removeChar l = l.filter (fun x => !cs.contains x) := by
  induction cs generalizing l with
  | nil => simp
  | cons c cs ih =>
    simp only [List.foldl_cons, ih, removeChar, List.filter_filter]
    congr 1
    funext x
    by_cases hx : x = c <;> simp [hx, List.contains_cons, Bool.not_or, Bool.and_comm]

theorem mem_pyStrip {c : Char} {s : List Char} (h : c ∈ pyStrip s) : c ∈ s := by
  unfold pyStrip at h
  rw [List.mem_reverse] at h
  have h1 := (List.dropWhile_sublist pySpace).subset h
  rw [List.mem_reverse] at h1
  exact (List.dropWhile_sublist pySpace).subset h1

theorem pyStrip_of_noSpace {s : List Char} (h : ∀ c ∈ s, pySpace c = false) :
    pyStrip s = s := by
  unfold pyStrip
  have h1 : s.dropWhile pySpace = s := by
    rw [List.dropWhile_eq_self_iff]
    intro hne hp
    exact absurd hp ((h _ (List.get_mem s 0 hne)).symm ▸ (by simp))
  rw [h1]
  have h2 : s.reverse.dropWhile pySpace = s.reverse := by
    rw [List.dropWhile_eq_self_iff]
    intro hne hp
    have hm : s.reverse.get ⟨0, hne⟩ ∈ s := by
      rw [← List.mem_reverse]; exact List.get_mem _ _ _
    exact absurd hp ((h _ hm).symm ▸ (by simp))
  rw [h2, List.reverse_reverse]

/-! ## Helper lemmas about dict updates and the query loop -/

theorem lookup_dictSet_self {r : Rec} {k : String} {v : JVal} :
    List.lookup k (dictSet r k v) = some v := by
  induction r with
  | nil => simp [dictSet, List.lookup]
  | cons kv rest ih =>
    obtain ⟨k0, v0⟩ := kv
    by_cases h : k0 = k
    · subst h; simp [dictSet, List.lookup]
    · have hb : (k == k0) = false := beq_eq_false_iff_ne.mpr (fun hk => h hk.symm)
      simp [dictSet, h, List.lookup, ih, hb]

theorem lookup_dictSet_ne {r : Rec} {k k2 : String} {v : JVal} (h : k2 ≠ k) :
    List.lookup k2 (dictSet r k v) = List.lookup k2 r := by
  have hb : (k2 == k) = false := beq_eq_false_iff_ne.mpr h
  induction r with
  | nil => simp [dictSet, List.lookup, hb]
  | cons kv rest ih =>
    obtain ⟨k0, v0⟩ := kv
    by_cases h0 : k0 = k
    · subst h0; simp [dictSet, List.lookup, hb]
    · simp [dictSet, h0, List.lookup, ih]

theorem runQueries_append (fetch : String → FetchOutcome) (a : SearchArgs) (nq : Nat)
    (now : String) (qs1 qs2 : List String) :
    runQueries fetch a nq now (qs1 ++ qs2) =
      runQueries fetch a nq now qs1 ++ runQueries fetch a nq now qs2 := by
  induction qs1 with
  | nil => rfl
  | cons q rest ih => simp [runQueries, ih]

theorem lookup_flatten {headers : List String} {r : Rec} {f : String}
    (hfc : f ≠ "country") (hfh : f ≠ "hostnames") (hfv : f ≠ "vulns") :
    List.lookup f (flattenRecord headers r) = List.lookup f r := by
  unfold flattenRecord
  by_cases hc : "country" ∈ headers <;> by_cases hh : "hostnames" ∈ headers <;>
    by_cases hv : "vulns" ∈ headers <;>
    simp [hc, hh, hv, lookup_dictSet_ne hfc, lookup_dictSet_ne hfh, lookup_dictSet_ne hfv]

theorem lookup_flatten_country (headers : List String) (r : Rec) :
    List.lookup "country" (flattenRecord headers r) =
      if headers.contains "country" then
        some (pyGet (pyGetObj r "location") "country_name" (JVal.str "N/A"))
      else List.lookup "country" r := by
  unfold flattenRecord
  have h1 : ("country" : String) ≠ "hostnames" := by decide
  have h2 : ("country" : String) ≠ "vulns" := by decide
  by_cases hc : "country" ∈ headers <;> by_cases hh : "hostnames" ∈ headers <;>
    by_cases hv : "vulns" ∈ headers <;>
    simp [hc, hh, hv, lookup_dictSet_self, lookup_dictSet_ne h1, lookup_dictSet_ne h2]

theorem lookup_flatten_hostnames (headers : List String) (r : Rec) :
    List.lookup "hostnames" (flattenRecord headers r) =
      if headers.contains "hostnames" then
        some (JVal.str (joinComma (List.lookup "hostnames" r)))
      else List.lookup "hostnames" r := by
  unfold flattenRecord
  have h1 : ("hostnames" : String) ≠ "country" := by decide
  have h2 : ("hostnames" : String) ≠ "vulns" := by decide
  by_cases hc : "country" ∈ headers <;> by_cases hh : "hostnames" ∈ headers <;>
    by_cases hv : "vulns" ∈ headers <;>
    simp [hc, hh, hv, lookup_dictSet_self, lookup_dictSet_ne h1, lookup_dictSet_ne h2]

theorem lookup_flatten_vulns (headers : List String) (r : Rec) :
    List.lookup "vulns" (flattenRecord headers r) =
      if headers.contains "vulns" then
        some (JVal.str (joinComma (List.lookup "vulns" r)))
      else List.lookup "vulns" r := by
  unfold flattenRecord
  have h1 : ("vulns" : String) ≠ "country" := by decide
  have h2 : ("vulns" : String) ≠ "hostnames" := by decide
  by_cases hc : "country" ∈ headers <;> by_cases hh : "hostnames" ∈ headers <;>
    by_cases hv : "vulns" ∈ headers <;>
    simp [hc, hh, hv, lookup_dictSet_self, lookup_dictSet_ne h1, lookup_dictSet_ne h2]

/-! ## Claim theorems -/

/-- C1: the final query built by the search handler is the base string
followed by each present (truthy) filter rendered as `key:value`, joined by
single spaces, always in the order country, port, vuln; being a function of
exactly these inputs, it is deterministic. -/
theorem build_query_spec (base : String) (country port vuln : Option String) :
    build_query base country port vuln =
      base ++ (if truthyStr country then " country:" ++ country.getD "" else "")
           ++ (if truthyStr port then " port:" ++ port.getD "" else "")
           ++ (if truthyStr vuln then " vuln:" ++ vuln.getD "" else "") := by
  have h1 : (" country:").data = ' ' :: ("country:").data := rfl
  have h2 : (" port:").data = ' ' :: ("port:").data := rfl
  have h3 : (" vuln:").data = ' ' :: ("vuln:").data := rfl
  have hsp : (" ").data = [' '] := rfl
  unfold build_query
  cases truthyStr country <;> cases truthyStr port <;> cases truthyStr vuln <;>
    (apply String.ext; simp [joinSpace, String.data_append, h1, h2, h3, hsp])

/-- C2 counterexample: the input `"?"` consists only of invalid filename
characters, yet `sanitize_filename` returns the empty string — there is no
fallback name in the code. -/
theorem sanitize_filename_empty_cex :
    (∀ c ∈ ("?").data, c ∈ invalid_chars) ∧ sanitize_filename "?" = "" :=
  ⟨by decide, by decide⟩

/-- C2 amended: the output of `sanitize_filename` contains none of the
invalid characters, and an input consisting entirely of invalid characters
yields the empty string (the code has no fallback name). -/
theorem sanitize_filename_amended (q : String) :
    (∀ c ∈ (sanitize_filename q).data, c ∉ invalid_chars) ∧
    ((∀ c ∈ q.data, c ∈ invalid_chars) → sanitize_filename q = "") := by
  constructor
  · intro c hc
    have hc2 : c ∈ invalid_chars.foldl removeChar
        ((pyStrip q.data).map (fun c => if c = ' ' then '_' else c)) := hc
    rw [foldl_removeChar] at hc2
    have hcont := (List.mem_filter.mp hc2).2
    simp at hcont
    exact hcont
  · intro hall
    unfold sanitize_filename
    suffices hL : invalid_chars.foldl removeChar
        ((pyStrip q.data).map (fun c => if c = ' ' then '_' else c)) = [] by
      rw [hL]
    rw [foldl_removeChar, List.filter_eq_nil_iff]
    intro a ha
    rw [List.mem_map] at ha
    obtain ⟨x, hx, rfl⟩ := ha
    have hxi := hall x (mem_pyStrip hx)
    have hxs : x ≠ ' ' := by
      intro hsp; rw [hsp] at hxi; exact absurd hxi (by decide)
    simp [if_neg hxs, hxi]

/-- C2 witness: applying the amended theorem at concrete inputs. -/
theorem sanitize_filename_amended_witness :
    ('<' ∉ (sanitize_filename "a<b").data) ∧ sanitize_filename "<>" = "" :=
  ⟨fun h => (sanitize_filename_amended "a<b").1 '<' h (by decide),
   (sanitize_filename_amended "<>").2 (by decide)⟩

/-- C3 counterexample: a literal query that is empty yields an empty query
list with no error at all (the handler then silently runs zero queries),
and a whitespace-only literal query is passed through untrimmed — neither
produces a validation error. -/
theorem computeQueries_silent_cex :
    computeQueries (some "") none = Except.ok [] ∧
    computeQueries (some "   ") none = Except.ok ["   "] :=
  ⟨rfl, rfl⟩

/-- C3 amended: only the query-file path validates emptiness: a missing
file or a file whose lines are all empty after stripping exits with a
caller-visible startup error, while a falsy literal query is silently
skipped and a truthy (even all-whitespace) literal query is passed
through unchanged. -/
theorem computeQueries_amended :
    (∀ q : String, truthyStr (some q) = false → computeQueries (some q) none = .ok []) ∧
    (∀ (q : String) (f : Option FileRead), truthyStr (some q) = true →
      computeQueries (some q) f = .ok [q]) ∧
    (∀ ls : List String,
      ls.filterMap (fun line =>
        let s := pyStripStr line
        if s.isEmpty then none else some s) = [] →
      computeQueries none (some (.lines ls)) = .error .queryFileEmpty) ∧
    computeQueries none (some .missing) = .error .queryFileMissing := by
  refine ⟨?_, ?_, ?_, rfl⟩
  · intro q h; simp [computeQueries, h]
  · intro q f h; simp [computeQueries, h]
  · intro ls h; simp [computeQueries, truthyStr, h]

/-- C3 witness: applying the amended theorem at concrete inputs. -/
theorem computeQueries_amended_witness :
    computeQueries (some "") none = Except.ok [] ∧
    computeQueries (some "apache") none = Except.ok ["apache"] ∧
    computeQueries none (some (.lines ["  ", ""])) = Except.error .queryFileEmpty :=
  ⟨computeQueries_amended.1 "" rfl,
   computeQueries_amended.2.1 "apache" none rfl,
   computeQueries_amended.2.2.1 ["  ", ""] (by decide)⟩

/-- C4: with more than one query the explicit output name is ignored and
the sanitized query text is used; the explicit name is the base filename
only when exactly one query runs and the option is truthy. -/
theorem output_name_asymmetry (nq : Nat) (output : Option String) (q : String) :
    (1 < nq → base_filename nq output q = sanitize_filename q) ∧
    (nq = 1 → truthyStr output = true → base_filename nq output q = output.getD "") ∧
    (base_filename nq output q ≠ sanitize_filename q →
      nq = 1 ∧ truthyStr output = true ∧ base_filename nq output q = output.getD "") := by
  unfold base_filename
  split_ifs with h
  · obtain ⟨h1, h2⟩ := h
    exact ⟨fun hgt => absurd h1 (by omega), fun _ _ => rfl, fun _ => ⟨h1, h2, rfl⟩⟩
  · refine ⟨fun _ => rfl, fun h1 h2 => absurd ⟨h1, h2⟩ h, fun hne => absurd rfl hne⟩

/-- C4 witness: applying the theorem at concrete inputs. -/
theorem output_name_asymmetry_witness :
    base_filename 2 (some "custom") "a b" = sanitize_filename "a b" ∧
    base_filename 1 (some "custom") "a b" = "custom" :=
  ⟨(output_name_asymmetry 2 (some "custom") "a b").1 (by omega),
   (output_name_asymmetry 1 (some "custom") "a b").2.1 rfl rfl⟩

/-- C5: if the fetch raises `shodan.APIError` for a query, whatever records
it had already yielded are discarded, the outcome is `remoteError` with no
file written, and every other query of the batch is processed unchanged. -/
theorem remoteError_skips_query (fetch : String → FetchOutcome) (a : SearchArgs)
    (nq : Nat) (now : String) (pre post : List String) (q : String) (collected : List Rec)
    (h : fetch (build_query q a.country a.port a.vuln) = .apiError collected) :
    runQueries fetch a nq now (pre ++ q :: post) =
      runQueries fetch a nq now pre ++
        (Outcome.remoteError, none) :: runQueries fetch a nq now post := by
  rw [runQueries_append]
  simp [runQueries, processQuery, h]

/-- C5 witness: applying the theorem at a concrete batch. -/
theorem remoteError_skips_query_witness :
    runQueries (fun _ => FetchOutcome.apiError [[("ip_str", JVal.str "1.2.3.4")]])
      ⟨none, .txt, false, none, none, none, none⟩ 1 "ts" ["apache"] =
      [(Outcome.remoteError, none)] :=
  remoteError_skips_query (fun _ => FetchOutcome.apiError [[("ip_str", JVal.str "1.2.3.4")]])
    ⟨none, .txt, false, none, none, none, none⟩ 1 "ts" [] [] "apache"
    [[("ip_str", JVal.str "1.2.3.4")]] rfl

/-- C6: a query whose fetch completes with zero records invokes no writer,
produces no file, is recorded as `emptyResult`, and the rest of the batch
is processed unchanged. -/
theorem emptyResult_skips_writer (fetch : String → FetchOutcome) (a : SearchArgs)
    (nq : Nat) (now : String) (pre post : List String) (q : String)
    (h : fetch (build_query q a.country a.port a.vuln) = .success []) :
    runQueries fetch a nq now (pre ++ q :: post) =
      runQueries fetch a nq now pre ++
        (Outcome.emptyResult, none) :: runQueries fetch a nq now post := by
  rw [runQueries_append]
  simp [runQueries, processQuery, h]

/-- C6 witness: applying the theorem at a concrete batch. -/
theorem emptyResult_skips_writer_witness :
    runQueries (fun _ => FetchOutcome.success [])
      ⟨none, .csv, false, none, none, none, none⟩ 1 "ts" ["apache"] =
      [(Outcome.emptyResult, none)] :=
  emptyResult_skips_writer (fun _ => FetchOutcome.success [])
    ⟨none, .csv, false, none, none, none, none⟩ 1 "ts" [] [] "apache" rfl

/-- C10: an empty string at a higher-precedence credential source is falsy
and falls through to the next source, and a config-file read error is
swallowed, yielding no credential and hence the missing-credential startup
error instead of a crash. -/
theorem get_api_key_fallthrough :
    (∀ (envKey : Option String) (cfg : ConfigFile),
      get_api_key (some "") envKey cfg = get_api_key none envKey cfg) ∧
    (∀ (argKey : Option String) (cfg : ConfigFile),
      get_api_key argKey (some "") cfg = get_api_key argKey none cfg) ∧
    (∀ argKey envKey : Option String, truthyStr argKey = false → truthyStr envKey = false →
      get_api_key argKey envKey .readError = none ∧
      mainStartup argKey envKey .readError = .missingKeyError) := by
  refine ⟨fun envKey cfg => rfl, fun argKey cfg => rfl, fun argKey envKey h1 h2 => ?_⟩
  have hk : get_api_key argKey envKey .readError = none := by
    simp [get_api_key, h1, h2]
  exact ⟨hk, by simp [mainStartup, hk, truthyStr]⟩

/-- C7 counterexample: with the custom field list `country` and one record
that lacks the field entirely, the emitted column value is `N/A`, not the
empty-field value: the writer always overwrites `country` with the value
derived from `location.country_name`, whose default is `N/A`. -/
theorem write_csv_country_cex :
    (write_csv (some "country") [([] : Rec)]).1.1 = ["country"] ∧
    (write_csv (some "country") [([] : Rec)]).1.2 = [[JVal.str "N/A"]] ∧
    JVal.str "N/A" ≠ JVal.str "" := by
  refine ⟨rfl, rfl, fun h => ?_⟩
  exact absurd (JVal.str.inj h) (by decide)

/-- C7 amended: a header field absent from every record renders as the
empty string in every row without error, except `country`, which the
writer always overwrites with the value derived from `location.country_name`
(defaulting to `N/A`); each row has exactly one cell per header field, so
record fields outside the header are dropped. -/
theorem write_csv_missing_field_amended (cf : Option String) (results : List Rec)
    (f : String) (j : Nat)
    (hfj : (csvHeaders cf).get? j = some f)
    (hfc : f ≠ "country")
    (habsent : ∀ r ∈ results, List.lookup f r = none) :
    f ∈ (write_csv cf results).1.1 ∧
    ∀ row ∈ (write_csv cf results).1.2,
      row.length = (csvHeaders cf).length ∧ row.get? j = some (JVal.str "") := by
  constructor
  · exact List.get?_mem hfj
  · intro row hrow
    simp only [write_csv, List.mem_map] at hrow
    obtain ⟨r2, ⟨r, hr, rfl⟩, rfl⟩ := hrow
    refine ⟨by simp [csvRow], ?_⟩
    rw [csvRow, List.get?_map, hfj]
    simp only [Option.map_some']
    congr 1
    unfold pyGet
    by_cases hfh : f = "hostnames"
    · subst hfh
      rw [lookup_flatten_hostnames]
      by_cases hh : "hostnames" ∈ csvHeaders cf <;>
        simp [hh, habsent r hr, joinComma]
    · by_cases hfv : f = "vulns"
      · subst hfv
        rw [lookup_flatten_vulns]
        by_cases hv : "vulns" ∈ csvHeaders cf <;>
          simp [hv, habsent r hr, joinComma]
      · rw [lookup_flatten hfc hfh hfv, habsent r hr]
        rfl

/-- C7 witness: applying the amended theorem at a concrete field list and
record list (`org` is in the header but in no record). -/
theorem write_csv_missing_field_amended_witness :
    "org" ∈ (write_csv (some "ip_str, org") [[("ip_str", JVal.str "1.2.3.4")]]).1.1 ∧
    ∀ row ∈ (write_csv (some "ip_str, org") [[("ip_str", JVal.str "1.2.3.4")]]).1.2,
      row.length = (csvHeaders (some "ip_str, org")).length ∧
      row.get? 1 = some (JVal.str "") :=
  write_csv_missing_field_amended (some "ip_str, org") [[("ip_str", JVal.str "1.2.3.4")]]
    "org" 1 rfl (by decide)
    (fun r hr => by rw [List.mem_singleton] at hr; rw [hr]; rfl)

/-- C9: `write_csv` writes its rows from the very records it has mutated in
place: the post-call record list is the flattened one, `country` is
overwritten with the value derived from `location.country_name`,
`hostnames` and `vulns` with the comma-joined strings, and on a concrete
record list the shared records really are changed by the call. -/
theorem write_csv_mutates_records (cf : Option String) (results : List Rec) :
    ((write_csv cf results).2 = results.map (flattenRecord (csvHeaders cf))) ∧
    ((write_csv cf results).1.2 = (write_csv cf results).2.map (csvRow (csvHeaders cf))) ∧
    (∀ r ∈ results, "country" ∈ csvHeaders cf →
      List.lookup "country" (flattenRecord (csvHeaders cf) r) =
        some (pyGet (pyGetObj r "location") "country_name" (JVal.str "N/A"))) ∧
    (∀ r ∈ results, "hostnames" ∈ csvHeaders cf →
      List.lookup "hostnames" (flattenRecord (csvHeaders cf) r) =
        some (JVal.str (joinComma (List.lookup "hostnames" r)))) ∧
    (∀ r ∈ results, "vulns" ∈ csvHeaders cf →
      List.lookup "vulns" (flattenRecord (csvHeaders cf) r) =
        some (JVal.str (joinComma (List.lookup "vulns" r)))) ∧
    (write_csv none [[("hostnames", JVal.arr [JVal.str "a", JVal.str "b"])]]).2 ≠
      [[("hostnames", JVal.arr [JVal.str "a", JVal.str "b"])]] := by
  refine ⟨rfl, rfl, ?_, ?_, ?_, ?_⟩
  · intro r _ hmem
    rw [lookup_flatten_country, if_pos (List.elem_eq_true_of_mem hmem)]
  · intro r _ hmem
    rw [lookup_flatten_hostnames, if_pos (List.elem_eq_true_of_mem hmem)]
  · intro r _ hmem
    rw [lookup_flatten_vulns, if_pos (List.elem_eq_true_of_mem hmem)]
  · have he : (write_csv none [[("hostnames", JVal.arr [JVal.str "a", JVal.str "b"])]]).2 =
        [[("hostnames", JVal.str "a, b"), ("country", JVal.str "N/A")]] := rfl
    rw [he]
    intro h
    simp at h

/-- C9 witness: applying the theorem at a concrete record list. -/
theorem write_csv_mutates_records_witness :
    List.lookup "hostnames"
      (flattenRecord (csvHeaders none) [("hostnames", JVal.arr [JVal.str "a", JVal.str "b"])]) =
      some (JVal.str "a, b") := by
  have h := (write_csv_mutates_records none
      [[("hostnames", JVal.arr [JVal.str "a", JVal.str "b"])]]).2.2.2.1
      [("hostnames", JVal.arr [JVal.str "a", JVal.str "b"])]
      (List.mem_singleton.mpr rfl) (by decide)
  exact h.trans (by rfl)

/-- C10 witness: applying the theorem at concrete inputs. -/
theorem get_api_key_fallthrough_witness :
    get_api_key (some "") (some "ENVKEY") .absent = some "ENVKEY" ∧
    get_api_key none none .readError = none ∧
    mainStartup none none .readError = .missingKeyError :=
  ⟨(get_api_key_fallthrough.1 (some "ENVKEY") .absent).trans rfl,
   (get_api_key_fallthrough.2.2 none none rfl rfl).1,
   (get_api_key_fallthrough.2.2 none none rfl rfl).2⟩

end ShodanSearch

namespace ShodanSearch

/-! ## Digit and whitespace facts -/

theorem digitChar_isDigit {d : Nat} (h : d < 10) : (Nat.digitChar d).isDigit = true := by
  interval_cases d <;> decide

theorem digitChar_toNat {d : Nat} (h : d < 10) : (Nat.digitChar d).toNat - 48 = d := by
  interval_cases d <;> decide

theorem hexVal_digitChar {d : Nat} (h : d < 16) : hexVal (Nat.digitChar d) = some d := by
  interval_cases d <;> decide

theorem ne_of_isDigit {c : Char} (h : c.isDigit = true) (k : Char) (hk : k.isDigit = false) :
    c ≠ k := by
  intro he; rw [he, hk] at h; cases h

theorem wsChar_eq_false_of_isDigit {c : Char} (h : c.isDigit = true) : wsChar c = false := by
  by_contra hw
  rw [Bool.not_eq_false] at hw
  unfold wsChar at hw
  simp only [Bool.or_eq_true, decide_eq_true_eq] at hw
  rcases hw with ((rfl | rfl) | rfl) | rfl <;> exact absurd h (by decide)

theorem skipWs_cons_ws {c : Char} (h : wsChar c = true) (s : List Char) :
    skipWs (c :: s) = skipWs s := by
  simp [skipWs, List.dropWhile_cons, h]

theorem skipWs_cons_not_ws {c : Char} (h : wsChar c = false) (s : List Char) :
    skipWs (c :: s) = c :: s := by
  simp [skipWs, List.dropWhile_cons, h]

theorem skipWs_spaces (n : Nat) (s : List Char) : skipWs (spaces n ++ s) = skipWs s := by
  induction n with
  | zero => rfl
  | succ m ih =>
    rw [spaces, List.replicate_succ, List.cons_append, skipWs_cons_ws (by decide)]
    exact ih

/-! ## Reading decimal digits back -/

theorem digitsToNat_stop {rest : List Char} (h : headNotDigit rest) (a : Nat) :
    digitsToNat a rest = (a, rest) := by
  cases rest with
  | nil => rfl
  | cons c cs => simp [digitsToNat, headNotDigit.eq_def] at h ⊢; simp [h]

theorem natDigsCore_acc (fuel : Nat) : ∀ (n : Nat) (ds : List Char),
    natDigsCore fuel n ds = natDigsCore fuel n [] ++ ds := by
  induction fuel with
  | zero => intro n ds; simp [natDigsCore]
  | succ f ih =>
    intro n ds
    by_cases h : n < 10
    · simp [natDigsCore, h]
    · simp only [natDigsCore, if_neg h]
      rw [ih (n / 10) (Nat.digitChar (n % 10) :: ds), ih (n / 10) [Nat.digitChar (n % 10)]]
      simp

theorem natDigsCore_extra : ∀ (n fuel1 fuel2 : Nat), n < fuel1 → n < fuel2 → ∀ ds,
    natDigsCore fuel1 n ds = natDigsCore fuel2 n ds := by
  intro n
  induction n using Nat.strong_induction_on with
  | _ n ih =>
    intro fuel1 fuel2 h1 h2 ds
    cases fuel1 with
    | zero => omega
    | succ f1 =>
      cases fuel2 with
      | zero => omega
      | succ f2 =>
        by_cases h : n < 10
        · simp [natDigsCore, h]
        · simp only [natDigsCore, if_neg h]
          exact ih (n / 10) (Nat.div_lt_self (by omega) (by omega)) f1 f2 (by omega) (by omega) _

theorem natDigsCore_digits : ∀ (fuel n : Nat) (acc : List Char),
    (∀ c ∈ acc, c.isDigit = true) → ∀ c ∈ natDigsCore fuel n acc, c.isDigit = true := by
  intro fuel
  induction fuel with
  | zero => intro n acc hacc; exact hacc
  | succ f ih =>
    intro n acc hacc c hc
    by_cases h : n < 10
    · rw [natDigsCore, if_pos h] at hc
      rcases List.mem_cons.mp hc with rfl | hmem
      · exact digitChar_isDigit h
      · exact hacc _ hmem
    · rw [natDigsCore, if_neg h] at hc
      refine ih (n / 10) _ ?_ c hc
      intro x hx
      rcases List.mem_cons.mp hx with rfl | hmem
      · exact digitChar_isDigit (Nat.mod_lt _ (by omega))
      · exact hacc _ hmem

theorem natDigs_digits (n : Nat) : ∀ c ∈ natDigs n, c.isDigit = true :=
  natDigsCore_digits (n + 1) n [] (by simp)

theorem natDigsCore_ne_nil : ∀ (fuel n : Nat), n < fuel → natDigsCore fuel n [] ≠ [] := by
  intro fuel n h
  cases fuel with
  | zero => omega
  | succ f =>
    by_cases h10 : n < 10
    · simp [natDigsCore, h10]
    · rw [natDigsCore, if_neg h10, natDigsCore_acc]
      simp

theorem natDigs_ne_nil (n : Nat) : natDigs n ≠ [] :=
  natDigsCore_ne_nil (n + 1) n (by omega)

theorem digitsToNat_natDigsCore : ∀ (n fuel : Nat), n < fuel → ∀ (acc : Nat) (rest : List Char),
    digitsToNat acc (natDigsCore fuel n [] ++ rest) =
      digitsToNat (acc * 10 ^ (natDigsCore fuel n []).length + n) rest := by
  intro n
  induction n using Nat.strong_induction_on with
  | _ n ih =>
    intro fuel hf acc rest
    cases fuel with
    | zero => omega
    | succ f =>
      by_cases h : n < 10
      · rw [natDigsCore, if_pos h]
        simp only [List.cons_append, List.nil_append, List.length_cons, List.length_nil]
        rw [digitsToNat, if_pos (digitChar_isDigit h), digitChar_toNat h]
        norm_num
      · rw [natDigsCore, if_neg h, natDigsCore_acc]
        have hd : n / 10 < n := Nat.div_lt_self (by omega) (by omega)
        have hf2 : n / 10 < f := by omega
        rw [List.append_assoc, List.cons_append, List.nil_append,
          ih (n / 10) hd f hf2 acc (Nat.digitChar (n % 10) :: rest)]
        rw [digitsToNat, if_pos (digitChar_isDigit (Nat.mod_lt _ (by omega))),
          digitChar_toNat (Nat.mod_lt _ (by omega))]
        rw [List.length_append, List.length_cons, List.length_nil]
        congr 1
        rw [pow_succ]
        have hmod := Nat.div_add_mod n 10
        rw [← mul_assoc]
        omega

theorem digitsToNat_natDigs (n : Nat) (rest : List Char) (h : headNotDigit rest) :
    digitsToNat 0 (natDigs n ++ rest) = (n, rest) := by
  rw [natDigs, digitsToNat_natDigsCore n (n + 1) (by omega) 0 rest]
  simp [digitsToNat_stop h]

end ShodanSearch

namespace ShodanSearch

/-! ## String-escape round trip and input-shape facts -/

theorem stripLit_self : ∀ (lit s : List Char), stripLit lit (lit ++ s) = some s := by
  intro lit
  induction lit with
  | nil => intro s; rfl
  | cons p ps ih => intro s; simp [stripLit, ih]

theorem escBody_length (cs : List Char) : cs.length ≤ (escBody cs).length := by
  induction cs with
  | nil => simp [escBody]
  | cons c cs ih =>
    rw [escBody, List.length_append]
    have : 1 ≤ (escChar c).length := by
      unfold escChar
      split_ifs <;> simp
    simp only [List.length_cons]
    omega

theorem parseStrBody_escBody : ∀ (cs : List Char), ∀ (fuel : Nat) (rest : List Char),
    cs.length < fuel →
    parseStrBody fuel (escBody cs ++ '"' :: rest) = some (cs, rest) := by
  intro cs
  induction cs with
  | nil =>
    intro fuel rest hf
    cases fuel with
    | zero => omega
    | succ f => simp +decide [escBody, parseStrBody]
  | cons c cs ih =>
    intro fuel rest hf
    cases fuel with
    | zero => omega
    | succ f =>
    have hlt : cs.length < f := by simp at hf; omega
    rw [escBody, List.append_assoc]
    by_cases h1 : c = '"'
    · subst h1; simp +decide [escChar, parseStrBody, ih _ _ hlt]
    · by_cases h2 : c = '\\'
      · subst h2; simp +decide [escChar, parseStrBody, ih _ _ hlt]
      · by_cases h3 : c = '\n'
        · subst h3; simp +decide [escChar, parseStrBody, ih _ _ hlt]
        · by_cases h4 : c = '\t'
          · subst h4; simp +decide [escChar, parseStrBody, ih _ _ hlt]
          · by_cases h5 : c = '\r'
            · subst h5; simp +decide [escChar, parseStrBody, ih _ _ hlt]
            · by_cases h6 : c = '\x08'
              · subst h6; simp +decide [escChar, parseStrBody, ih _ _ hlt]
              · by_cases h7 : c = '\x0c'
                · subst h7; simp +decide [escChar, parseStrBody, ih _ _ hlt]
                · by_cases h8 : c.toNat < 32
                  · have hhi : c.toNat / 16 < 16 := by omega
                    have hlo : c.toNat % 16 < 16 := Nat.mod_lt _ (by omega)
                    have hhex : hex4 '0' '0' (Nat.digitChar (c.toNat / 16))
                        (Nat.digitChar (c.toNat % 16)) = some c.toNat := by
                      unfold hex4
                      rw [hexVal_digitChar hhi, hexVal_digitChar hlo,
                        (show hexVal '0' = some 0 from by decide)]
                      exact congrArg some (by omega)
                    simp only [escChar, if_neg h1, if_neg h2, if_neg h3, if_neg h4, if_neg h5,
                      if_neg h6, if_neg h7, if_pos h8]
                    simp +decide [parseStrBody, hhex, ih _ _ hlt, Char.ofNat_toNat]
                  · simp only [escChar, if_neg h1, if_neg h2, if_neg h3, if_neg h4, if_neg h5,
                      if_neg h6, if_neg h7, if_neg h8]
                    simp +decide [parseStrBody, if_neg h1, if_neg h2, ih _ _ hlt]

theorem parseVal_congr_ws {a b : List Char} (h : skipWs a = skipWs b) (fuel : Nat) :
    parseVal fuel a = parseVal fuel b := by
  cases fuel with
  | zero => rfl
  | succ f => simp only [parseVal]; rw [h]

theorem printVal_head (v : JVal) (ind : Nat) :
    ∃ c s, printVal ind v = c :: s ∧ wsChar c = false ∧ c ≠ ']' ∧ c ≠ '}' := by
  cases v with
  | null => exact ⟨'n', _, rfl, by decide, by decide, by decide⟩
  | bool b =>
    cases b
    · exact ⟨'f', _, rfl, by decide, by decide, by decide⟩
    · exact ⟨'t', _, rfl, by decide, by decide, by decide⟩
  | num i =>
    show ∃ c s, printInt i = c :: s ∧ _
    unfold printInt
    by_cases hi : i < 0
    · rw [if_pos hi]; exact ⟨'-', _, rfl, by decide, by decide, by decide⟩
    · rw [if_neg hi]
      obtain ⟨c, s, hcs⟩ : ∃ c s, natDigs i.toNat = c :: s := by
        cases hna : natDigs i.toNat with
        | nil => exact absurd hna (natDigs_ne_nil _)
        | cons c s => exact ⟨c, s, rfl⟩
      have hd : c.isDigit = true := natDigs_digits _ c (hcs ▸ List.mem_cons_self _ _)
      exact ⟨c, s, hcs, wsChar_eq_false_of_isDigit hd,
        ne_of_isDigit hd ']' (by decide), ne_of_isDigit hd '}' (by decide)⟩
  | str s => exact ⟨'"', _, rfl, by decide, by decide, by decide⟩
  | arr xs =>
    cases xs with
    | nil => exact ⟨'[', _, rfl, by decide, by decide, by decide⟩
    | cons x xs => exact ⟨'[', _, rfl, by decide, by decide, by decide⟩
  | obj kvs =>
    cases kvs with
    | nil => exact ⟨'{', _, rfl, by decide, by decide, by decide⟩
    | cons kv kvs =>
      obtain ⟨k, v⟩ := kv
      exact ⟨'{', _, rfl, by decide, by decide, by decide⟩

theorem headNotDigit_printList (ind : Nat) (xs : List JVal) (t : List Char) :
    headNotDigit (printList ind xs ++ '\n' :: t) := by
  cases xs with
  | nil =>
    simp only [printList, List.nil_append]
    show ('\n').isDigit = false
    decide
  | cons x xs =>
    simp only [printList, List.cons_append]
    show (',').isDigit = false
    decide

theorem headNotDigit_printObjList (ind : Nat) (kvs : List (String × JVal)) (t : List Char) :
    headNotDigit (printObjList ind kvs ++ '\n' :: t) := by
  cases kvs with
  | nil =>
    simp only [printObjList, List.nil_append]
    show ('\n').isDigit = false
    decide
  | cons kv kvs =>
    obtain ⟨k, v⟩ := kv
    simp only [printObjList, List.cons_append]
    show (',').isDigit = false
    decide

theorem jfuel_pos (v : JVal) : 1 ≤ jfuel v := by
  cases v <;> simp [jfuel] <;> omega

theorem lfuel_pos (xs : List JVal) : 1 ≤ lfuel xs := by
  cases xs <;> simp [lfuel] <;> omega

theorem olfuel_pos (kvs : List (String × JVal)) : 1 ≤ olfuel kvs := by
  cases kvs <;> simp [olfuel] <;> omega

mutual

theorem jfuel_le_len : ∀ (v : JVal) (ind : Nat), jfuel v ≤ (printVal ind v).length + 1
  | .null, ind => by simp [jfuel, printVal]
  | .bool b, ind => by cases b <;> simp [jfuel, printVal]
  | .num i, ind => by rw [jfuel]; omega
  | .str s, ind => by rw [jfuel]; omega
  | .arr [], ind => by simp [jfuel, lfuel, printVal]
  | .arr (x :: xs), ind => by
    have h1 := jfuel_le_len x (ind + 2)
    have h2 := lfuel_le_len xs (ind + 2)
    simp only [jfuel, lfuel, printVal, spaces, List.length_append, List.length_cons,
      List.length_replicate] at h1 h2 ⊢
    omega
  | .obj [], ind => by simp [jfuel, olfuel, printVal]
  | .obj ((k, v) :: kvs), ind => by
    have h1 := jfuel_le_len v (ind + 2)
    have h2 := olfuel_le_len kvs (ind + 2)
    simp only [jfuel, olfuel, printVal, spaces, List.length_append, List.length_cons,
      List.length_replicate] at h1 h2 ⊢
    omega

theorem lfuel_le_len : ∀ (xs : List JVal) (ind : Nat), lfuel xs ≤ (printList ind xs).length + 1
  | [], ind => by simp [lfuel, printList]
  | x :: xs, ind => by
    have h1 := jfuel_le_len x ind
    have h2 := lfuel_le_len xs ind
    simp only [lfuel, printList, spaces, List.length_append, List.length_cons,
      List.length_replicate] at h1 h2 ⊢
    omega

theorem olfuel_le_len : ∀ (kvs : List (String × JVal)) (ind : Nat),
    olfuel kvs ≤ (printObjList ind kvs).length + 1
  | [], ind => by simp [olfuel, printObjList]
  | (k, v) :: kvs, ind => by
    have h1 := jfuel_le_len v ind
    have h2 := olfuel_le_len kvs ind
    simp only [olfuel, printObjList, spaces, List.length_append, List.length_cons,
      List.length_replicate] at h1 h2 ⊢
    omega

end

end ShodanSearch

namespace ShodanSearch

/-! ## The parse/print round trip -/

theorem parse_print : ∀ fuel : Nat,
    (∀ (v : JVal) (ind : Nat) (rest : List Char), jfuel v ≤ fuel → headNotDigit rest →
      parseVal fuel (printVal ind v ++ rest) = some (v, rest)) ∧
    (∀ (xs : List JVal) (indI indC : Nat) (rest : List Char), lfuel xs ≤ fuel →
      headNotDigit rest →
      parseArrRest fuel (printList indI xs ++ '\n' :: (spaces indC ++ ']' :: rest)) =
        some (xs, rest)) ∧
    (∀ (kvs : List (String × JVal)) (indI indC : Nat) (rest : List Char), olfuel kvs ≤ fuel →
      headNotDigit rest →
      parseObjRest fuel (printObjList indI kvs ++ '\n' :: (spaces indC ++ '}' :: rest)) =
        some (kvs, rest)) := by
  intro fuel
  induction fuel with
  | zero =>
    refine ⟨fun v _ _ hf _ => ?_, fun xs _ _ _ hf _ => ?_, fun kvs _ _ _ hf _ => ?_⟩
    · exact absurd hf (by have := jfuel_pos v; omega)
    · exact absurd hf (by have := lfuel_pos xs; omega)
    · exact absurd hf (by have := olfuel_pos kvs; omega)
  | succ fuel ih =>
    obtain ⟨ihV, ihA, ihO⟩ := ih
    refine ⟨?_, ?_, ?_⟩
    · intro v ind rest hf hnd
      cases v with
      | null => rfl
      | bool b => cases b <;> rfl
      | str s =>
        have hlen : s.data.length < (escBody s.data ++ '"' :: rest).length := by
          have := escBody_length s.data
          simp only [List.length_append, List.length_cons]
          omega
        calc parseVal (fuel + 1) (printVal ind (.str s) ++ rest)
            = (parseStrBody (escBody s.data ++ '"' :: rest).length
                (escBody s.data ++ '"' :: rest)).map
                (fun p => (JVal.str ⟨p.1⟩, p.2)) := by
              simp only [printVal, List.cons_append, List.append_assoc]
              rfl
          _ = some (.str s, rest) := by
              rw [parseStrBody_escBody s.data _ rest hlen]
              rfl
      | num i =>
        rw [show printVal ind (.num i) = printInt i from rfl]
        unfold printInt
        by_cases hi : i < 0
        · rw [if_pos hi]
          obtain ⟨c, s, hcs⟩ : ∃ c s, natDigs i.natAbs = c :: s := by
            cases hna : natDigs i.natAbs with
            | nil => exact absurd hna (natDigs_ne_nil _)
            | cons c s => exact ⟨c, s, rfl⟩
          have hd : c.isDigit = true := natDigs_digits _ c (hcs ▸ List.mem_cons_self _ _)
          rw [List.cons_append]
          simp only [parseVal]
          rw [skipWs_cons_not_ws (by decide)]
          simp +decide only [if_false, if_true]
          rw [hcs, List.cons_append]
          simp only [hd, if_true, ← List.cons_append, ← hcs]
          rw [digitsToNat_natDigs _ _ hnd]
          have habs : -(Int.ofNat i.natAbs) = i := by
            simp only [Int.ofNat_eq_natCast]; omega
          rw [habs]
        · rw [if_neg hi]
          obtain ⟨c, s, hcs⟩ : ∃ c s, natDigs i.toNat = c :: s := by
            cases hna : natDigs i.toNat with
            | nil => exact absurd hna (natDigs_ne_nil _)
            | cons c s => exact ⟨c, s, rfl⟩
          have hd : c.isDigit = true := natDigs_digits _ c (hcs ▸ List.mem_cons_self _ _)
          have hws := wsChar_eq_false_of_isDigit hd
          have h1 : c ≠ '"' := ne_of_isDigit hd _ (by decide)
          have h2 : c ≠ '[' := ne_of_isDigit hd _ (by decide)
          have h3 : c ≠ '{' := ne_of_isDigit hd _ (by decide)
          have h4 : c ≠ '-' := ne_of_isDigit hd _ (by decide)
          rw [hcs, List.cons_append]
          simp only [parseVal]
          rw [skipWs_cons_not_ws hws]
          simp only [if_neg h1, if_neg h2, if_neg h3, if_neg h4, hd, if_true,
            ← List.cons_append, ← hcs]
          rw [digitsToNat_natDigs _ _ hnd]
          have hnn : Int.ofNat i.toNat = i := by
            simp only [Int.ofNat_eq_natCast]; omega
          rw [hnn]
      | arr xs =>
        cases xs with
        | nil => rfl
        | cons x xs =>
          obtain ⟨c0, s0, hx, hws0, hne0, _⟩ := printVal_head x (ind + 2)
          have hfx : jfuel x ≤ fuel := by
            have := lfuel_pos xs
            rw [jfuel, lfuel] at hf
            omega
          have hfxs : lfuel xs ≤ fuel := by
            have := jfuel_pos x
            rw [jfuel, lfuel] at hf
            omega
          have hv := ihV x (ind + 2)
            (printList (ind + 2) xs ++ '\n' :: (spaces ind ++ ']' :: rest)) hfx
            (headNotDigit_printList _ _ _)
          have ha := ihA xs (ind + 2) ind rest hfxs hnd
          simp only [printVal, List.cons_append, List.append_assoc, List.nil_append]
          simp only [parseVal]
          rw [skipWs_cons_not_ws (by decide)]
          simp +decide only [if_false, if_true]
          rw [skipWs_cons_ws (by decide), skipWs_spaces, hx, List.cons_append,
            skipWs_cons_not_ws hws0]
          simp only [if_neg hne0]
          have hcongr : parseVal fuel
              ('\n' :: (spaces (ind + 2) ++ (printVal (ind + 2) x ++
                (printList (ind + 2) xs ++ '\n' :: (spaces ind ++ ']' :: rest))))) =
              some (x, printList (ind + 2) xs ++ '\n' :: (spaces ind ++ ']' :: rest)) := by
            rw [parseVal_congr_ws
              (b := printVal (ind + 2) x ++
                (printList (ind + 2) xs ++ '\n' :: (spaces ind ++ ']' :: rest)))
              (by rw [skipWs_cons_ws (by decide), skipWs_spaces])]
            exact hv
          rw [hx, List.cons_append] at hcongr
          rw [hcongr]
          simp only []
          rw [ha]
      | obj kvs =>
        cases kvs with
        | nil => rfl
        | cons kv kvs =>
          obtain ⟨k, v⟩ := kv
          have hfv : jfuel v ≤ fuel := by
            have := olfuel_pos kvs
            rw [jfuel, olfuel] at hf
            omega
          have hfkvs : olfuel kvs ≤ fuel := by
            have := jfuel_pos v
            rw [jfuel, olfuel] at hf
            omega
          have hv := ihV v (ind + 2)
            (printObjList (ind + 2) kvs ++ '\n' :: (spaces ind ++ '}' :: rest)) hfv
            (headNotDigit_printObjList _ _ _)
          have ho := ihO kvs (ind + 2) ind rest hfkvs hnd
          simp only [printVal, List.cons_append, List.append_assoc, List.nil_append]
          simp only [parseVal]
          rw [skipWs_cons_not_ws (by decide)]
          simp +decide only [if_false, if_true]
          rw [skipWs_cons_ws (by decide), skipWs_spaces, skipWs_cons_not_ws (by decide)]
          simp +decide only [if_false, if_true]
          rw [parseStrBody_escBody k.data _ _ (by
            simp only [List.length_append, List.length_cons]
            have := escBody_length k.data
            omega)]
          simp only []
          rw [skipWs_cons_not_ws (by decide)]
          simp +decide only [if_false, if_true]
          have hcongr : parseVal fuel
              (' ' :: (printVal (ind + 2) v ++
                (printObjList (ind + 2) kvs ++ '\n' :: (spaces ind ++ '}' :: rest)))) =
              some (v, printObjList (ind + 2) kvs ++ '\n' :: (spaces ind ++ '}' :: rest)) := by
            rw [parseVal_congr_ws
              (b := printVal (ind + 2) v ++
                (printObjList (ind + 2) kvs ++ '\n' :: (spaces ind ++ '}' :: rest)))
              (by rw [skipWs_cons_ws (by decide)])]
            exact hv
          rw [hcongr]
          simp only []
          rw [ho]
    · intro xs indI indC rest hf hnd
      cases xs with
      | nil =>
        simp only [printList, List.nil_append]
        simp only [parseArrRest]
        rw [skipWs_cons_ws (by decide), skipWs_spaces, skipWs_cons_not_ws (by decide)]
        simp +decide only [if_false, if_true]
      | cons x xs =>
        obtain ⟨c0, s0, hx, hws0, hne0, _⟩ := printVal_head x indI
        have hfx : jfuel x ≤ fuel := by
          have := lfuel_pos xs
          rw [lfuel] at hf
          omega
        have hfxs : lfuel xs ≤ fuel := by
          have := jfuel_pos x
          rw [lfuel] at hf
          omega
        have hv := ihV x indI
          (printList indI xs ++ '\n' :: (spaces indC ++ ']' :: rest)) hfx
          (headNotDigit_printList _ _ _)
        have ha := ihA xs indI indC rest hfxs hnd
        simp only [printList, List.cons_append, List.append_assoc, List.nil_append]
        simp only [parseArrRest]
        rw [skipWs_cons_not_ws (by decide)]
        simp +decide only [if_false, if_true]
        have hcongr : parseVal fuel
            ('\n' :: (spaces indI ++ (printVal indI x ++
              (printList indI xs ++ '\n' :: (spaces indC ++ ']' :: rest))))) =
            some (x, printList indI xs ++ '\n' :: (spaces indC ++ ']' :: rest)) := by
          rw [parseVal_congr_ws
            (b := printVal indI x ++
              (printList indI xs ++ '\n' :: (spaces indC ++ ']' :: rest)))
            (by rw [skipWs_cons_ws (by decide), skipWs_spaces])]
          exact hv
        rw [hcongr]
        simp only []
        rw [ha]
    · intro kvs indI indC rest hf hnd
      cases kvs with
      | nil =>
        simp only [printObjList, List.nil_append]
        simp only [parseObjRest]
        rw [skipWs_cons_ws (by decide), skipWs_spaces, skipWs_cons_not_ws (by decide)]
        simp +decide only [if_false, if_true]
      | cons kv kvs =>
        obtain ⟨k, v⟩ := kv
        have hfv : jfuel v ≤ fuel := by
          have := olfuel_pos kvs
          rw [olfuel] at hf
          omega
        have hfkvs : olfuel kvs ≤ fuel := by
          have := jfuel_pos v
          rw [olfuel] at hf
          omega
        have hv := ihV v indI
          (printObjList indI kvs ++ '\n' :: (spaces indC ++ '}' :: rest)) hfv
          (headNotDigit_printObjList _ _ _)
        have ho := ihO kvs indI indC rest hfkvs hnd
        simp only [printObjList, List.cons_append, List.append_assoc, List.nil_append]
        simp only [parseObjRest]
        rw [skipWs_cons_not_ws (by decide)]
        simp +decide only [if_false, if_true]
        rw [skipWs_cons_ws (by decide), skipWs_spaces, skipWs_cons_not_ws (by decide)]
        simp +decide only [if_false, if_true]
        rw [parseStrBody_escBody k.data _ _ (by
          simp only [List.length_append, List.length_cons]
          have := escBody_length k.data
          omega)]
        simp only []
        rw [skipWs_cons_not_ws (by decide)]
        simp +decide only [if_false, if_true]
        have hcongr : parseVal fuel
            (' ' :: (printVal indI v ++
              (printObjList indI kvs ++ '\n' :: (spaces indC ++ '}' :: rest)))) =
            some (v, printObjList indI kvs ++ '\n' :: (spaces indC ++ '}' :: rest)) := by
          rw [parseVal_congr_ws
            (b := printVal indI v ++
              (printObjList indI kvs ++ '\n' :: (spaces indC ++ '}' :: rest)))
            (by rw [skipWs_cons_ws (by decide)])]
          exact hv
        rw [hcongr]
        simp only []
        rw [ho]

theorem decodeRecords_encode : ∀ rs : List Rec, decodeRecords (.arr (rs.map .obj)) = some rs := by
  intro rs
  induction rs with
  | nil => rfl
  | cons r rs ih =>
    simp only [decodeRecords, List.map_cons, decodeRecList] at ih ⊢
    simp [ih]

end ShodanSearch

namespace ShodanSearch

/-- C8: serializing a Result Set with `write_json` and parsing the output
back yields exactly the input records: every field of every record and the
record order are preserved (non-ASCII text is printed literally by
`escChar` and read back unchanged). -/
theorem write_json_roundtrip (results : List Rec) :
    (parseJson (write_json results)).bind decodeRecords = some results := by
  have h := (parse_print ((printVal 0 (JVal.arr (results.map .obj))).length + 1)).1
    (JVal.arr (results.map .obj)) 0 [] (jfuel_le_len _ _) trivial
  rw [List.append_nil] at h
  show (match parseVal ((printVal 0 (JVal.arr (results.map .obj))).length + 1)
      (printVal 0 (JVal.arr (results.map .obj))) with
    | some (v, r) => if (skipWs r).isEmpty then some v else none
    | none => none).bind decodeRecords = some results
  rw [h]
  simp [skipWs, decodeRecords_encode]

end ShodanSearch
